import Mathlib

/-!
# Verification of the dependency-guardian package dependency resolver

Shallow embedding of the core of `cosmos/dependency-guardian`:
* `pkg/analysis/pkg.go` — the `Pkg`/`Tree` data model, `Tree.Resolve`,
  `Tree.FindReverseDependencies`, `Tree.IsInternal`;
* the analyzer (`Analyzer.AnalyzeChangedPackages`, `AnalysisResult.String`);
* the config predicates (`Config.IsHighLevelPackage`, `Config.IsCriticalPackage`,
  `Config.ShouldIgnorePackage`).

Go maps are modelled as association lists; map iteration order (unspecified in
Go) is modelled by explicit permutation parameters where a claim depends on it.
Machine pointers (`*Pkg`) are modelled by package names, which is faithful
because the graph keeps exactly one node per name and all pointer uses in the
analyzed code compare or read only the `Name` field.
-/

namespace DepGuardian

/-! ## Go string primitives

`strings.HasPrefix`, `strings.TrimPrefix`, `strings.HasSuffix`, `filepath.Dir`
and `filepath.Join`, modelled on the character lists underlying `String`. -/

/-- Boolean check that `s` begins with `pre`, by direct recursion on the
character lists (the semantics of `strings.HasPrefix` in Go). -/
def listStarts : List Char → List Char → Bool
  | _, [] => true
  | [], _ :: _ => false
  | c :: s, d :: pre => c == d && listStarts s pre

/-- Go `strings.HasPrefix(s, pre)`. -/
def goStartsWith (s pre : String) : Bool :=
  listStarts s.data pre.data

/-- Go `strings.HasSuffix(s, suf)`. -/
def goEndsWith (s suf : String) : Bool :=
  listStarts s.data.reverse suf.data.reverse

/-- Go `strings.TrimPrefix(s, pre)`: drops `pre` when it is a prefix,
otherwise returns `s` unchanged. -/
def goTrimPre (s pre : String) : String :=
  if goStartsWith s pre then ⟨s.data.drop pre.data.length⟩ else s

/-- The characters before the last `'/'` of a character list, or `none`
when there is no `'/'`. -/
def beforeLastSlash : List Char → Option (List Char)
  | [] => none
  | c :: rest =>
    match beforeLastSlash rest with
    | some l => some (c :: l)
    | none => if c = '/' then some [] else none

/-- Go `filepath.Dir` restricted to clean, slash-separated relative paths:
everything before the final separator, or `"."` when there is none. -/
def goDir (path : String) : String :=
  match beforeLastSlash path.data with
  | some l => ⟨l⟩
  | none => "."

/-- Go `filepath.Join` restricted to the two-argument uses in the code:
`Join(a, "") = a` and otherwise `a ++ "/" ++ b`. -/
def goJoin (a b : String) : String :=
  if b = "" then a else a ++ "/" ++ b

/-- Lexicographic comparison of character lists — the order used by
`sort.Strings` and `sort.Slice` on names — by structural recursion, so that
concrete analyses evaluate. -/
def charListLe : List Char → List Char → Bool
  | [], _ => true
  | _ :: _, [] => false
  | c :: s, d :: t => if c = d then charListLe s t else decide (c < d)

/-- Lexicographic string comparison (`sort.Strings` order). -/
def goStrLe (a b : String) : Bool :=
  charListLe a.data b.data

instance : DecidableRel (fun a b : String => goStrLe a b = true) :=
  fun a b => instDecidableEqBool (goStrLe a b) true

instance : IsTotal String (fun a b => goStrLe a b = true) := ⟨by
  intro a b
  obtain ⟨la⟩ := a
  obtain ⟨lb⟩ := b
  show charListLe la lb = true ∨ charListLe lb la = true
  induction la generalizing lb with
  | nil => exact Or.inl rfl
  | cons c s ih =>
    cases lb with
    | nil => exact Or.inr rfl
    | cons d t =>
      by_cases h : c = d
      · subst h
        rcases ih t with h1 | h1
        · exact Or.inl (by simp [charListLe, h1])
        · exact Or.inr (by simp [charListLe, h1])
      · have hdc : ¬ d = c := fun hh => h hh.symm
        rcases lt_or_gt_of_ne h with hlt | hlt
        · exact Or.inl (by simp [charListLe, h, hlt])
        · exact Or.inr (by simp [charListLe, hdc, hlt])⟩

instance : IsTrans String (fun a b => goStrLe a b = true) := ⟨by
  intro a b c hab hbc
  obtain ⟨la⟩ := a
  obtain ⟨lb⟩ := b
  obtain ⟨lc⟩ := c
  change charListLe la lb = true at hab
  change charListLe lb lc = true at hbc
  show charListLe la lc = true
  induction la generalizing lb lc with
  | nil => rfl
  | cons x s ih =>
    cases lb with
    | nil => exact absurd hab (by simp [charListLe])
    | cons y t =>
      cases lc with
      | nil => exact absurd hbc (by simp [charListLe])
      | cons z u =>
        by_cases hxy : x = y
        · subst hxy
          by_cases hyz : x = z
          · subst hyz
            simp only [charListLe, if_pos rfl] at hab hbc ⊢
            exact ih t u hab hbc
          · simp only [charListLe, if_neg hyz] at hbc ⊢
            exact hbc
        · by_cases hyz : y = z
          · subst hyz
            simp only [charListLe, if_neg hxy] at hab ⊢
            exact hab
          · simp [charListLe, hxy, hyz] at hab hbc
            by_cases hxz : x = z
            · subst hxz
              exact absurd (lt_trans hab hbc) (lt_irrefl x)
            · simp [charListLe, hxz]
              exact lt_trans hab hbc⟩

instance : IsAntisymm String (fun a b => goStrLe a b = true) := ⟨by
  intro a b hab hba
  obtain ⟨la⟩ := a
  obtain ⟨lb⟩ := b
  change charListLe la lb = true at hab
  change charListLe lb la = true at hba
  have heq : la = lb := by
    induction la generalizing lb with
    | nil =>
      cases lb with
      | nil => rfl
      | cons d t => exact absurd hba (by simp [charListLe])
    | cons c s ih =>
      cases lb with
      | nil => exact absurd hab (by simp [charListLe])
      | cons d t =>
        by_cases h : c = d
        · subst h
          simp only [charListLe, if_pos rfl] at hab hba
          rw [ih t hab hba]
        · have hdc : ¬ d = c := fun hh => h hh.symm
          simp [charListLe, h] at hab
          simp [charListLe, hdc] at hba
          exact absurd hba (lt_asymm hab)
  exact congrArg String.mk heq⟩

/-! ## Filesystem model

`Tree.Resolve` touches the filesystem through `os.Stat` and
`parser.ParseDir(fset, dir, nil, parser.ImportsOnly)`.  A directory that
exists is modelled by its `ParseDir` outcome: either a parse error or the
list of parsed `.go` files (note that `ParseDir` parses *all* `.go` files,
test files included; the `_test.go` exclusion happens later, in the file
loop of `Resolve`). The import paths are stored unquoted (the code strips
the surrounding quotes as it reads them). -/

/-- One parsed `.go` file: its path as reported by `ParseDir` and its list
of import paths. -/
structure GoFile where
  fname : String
  imports : List String
  deriving DecidableEq, Repr

deriving instance DecidableEq for Except

/-- The filesystem visible to the resolver: an association from directory
path to the `ParseDir` outcome for directories that exist. -/
structure FS where
  dirs : List (String × Except String (List GoFile))
  deriving DecidableEq, Repr

/-- `os.Stat` succeeds exactly on the directories present in the model. -/
def FS.stat (fs : FS) (path : String) : Bool :=
  (fs.dirs.find? (fun e => e.1 == path)).isSome

/-- `parser.ParseDir` on a directory (only consulted when it exists; a
missing directory is mapped to an error that the caller never sees because
it checks `stat` first). -/
def FS.parseDir (fs : FS) (path : String) : Except String (List GoFile) :=
  match fs.dirs.find? (fun e => e.1 == path) with
  | some e => e.2
  | none => Except.error "directory does not exist"

/-! ## Data model (`pkg/analysis/pkg.go`) -/

/-- `Pkg` from `pkg/analysis/pkg.go`.  `deps` holds the names of the
`Dependencies` entries: the Go field stores `*Pkg` pointers into the
`Tree.Packages` map, and every use of those pointers reads only `Name`. -/
structure Pkg where
  name : String
  internal : Bool
  files : List String
  imports : List String
  deps : List String
  deriving DecidableEq, Repr

/-- `Tree` from `pkg/analysis/pkg.go`; the `Packages` map is an association
list keyed by package path. -/
structure Tree where
  packages : List (String × Pkg)
  rootDir : String
  rootPkgPath : String
  deriving DecidableEq, Repr

/-- `NewTree(rootDir, rootPkgPath)`. -/
def newTree (rootDir rootPkgPath : String) : Tree :=
  { packages := [], rootDir := rootDir, rootPkgPath := rootPkgPath }

/-- Lookup in the `Packages` map. -/
def lookupPkg (ps : List (String × Pkg)) (k : String) : Option Pkg :=
  (ps.find? (fun e => e.1 == k)).map (fun e => e.2)

/-- Overwrite the value stored under an existing key of the `Packages` map
(the Go code mutates the node in place through the pointer in the map). -/
def setPkg (ps : List (String × Pkg)) (k : String) (p : Pkg) :
    List (String × Pkg) :=
  ps.map (fun e => if e.1 == k then (e.1, p) else e)

/-! ## `Tree.Resolve`

The recursion in `Resolve` terminates because a node is registered in the
map before its imports are resolved; the embedding makes this a fuel-indexed
function and proves (theorem `claim_C1_...`) that the fuel `fuelBound` —
one more than the number of not-yet-registered candidate package names —
always suffices, so `Tree.resolve` below never hits the fuel default.

The nested loop over parsed packages, files and imports (lines 84–117 of
`pkg.go`) is flattened into a list of scan items: each non-test file
contributes its own name followed by its import declarations, in order. -/

/-- One step of the file/import loop of `Resolve`: either a source file to
record or an import declaration to process. -/
inductive ScanItem where
  | srcFile (fname : String)
  | importDecl (path : String)
  deriving DecidableEq, Repr

/-- The scan items of the parsed files of one directory: test files are skipped
(`strings.HasSuffix(filename, "_test.go")`), every other file contributes
its name and then its imports. -/
def scanItems (files : List GoFile) : List ScanItem :=
  files.flatMap (fun f =>
    if goEndsWith f.fname "_test.go" then []
    else ScanItem.srcFile f.fname :: f.imports.map ScanItem.importDecl)

/-- State threaded through the file/import loop: the tree, the node under
construction, and the `importSet` deduplication set. -/
abbrev ScanState := Tree × Pkg × List String

/-- The body of the file/import loop of `Resolve` (lines 84–117), with the
recursive call abstracted as `resolve`.  `none` propagates fuel exhaustion
of the recursive call. -/
def processItems (root : String)
    (resolve : Tree → String → Option (Tree × Except String Unit)) :
    ScanState → List ScanItem → Option ScanState
  | st, [] => some st
  | (t, pkg, iset), ScanItem.srcFile f :: rest =>
      processItems root resolve (t, { pkg with files := pkg.files ++ [f] }, iset) rest
  | (t, pkg, iset), ScanItem.importDecl imp :: rest =>
      -- only internal imports not already in the import set are processed
      if goStartsWith imp root && !(iset.contains imp) then
        match resolve t imp with
        | none => none
        | some (t', Except.error _) =>
            -- "failed to resolve import, continuing": the dependency is not added
            processItems root resolve
              (t', { pkg with imports := pkg.imports ++ [imp] }, iset ++ [imp]) rest
        | some (t', Except.ok _) =>
            match lookupPkg t'.packages imp with
            | some _ =>
                processItems root resolve
                  (t', { pkg with
                         imports := pkg.imports ++ [imp]
                         deps := pkg.deps ++ [imp] }, iset ++ [imp]) rest
            | none =>
                processItems root resolve
                  (t', { pkg with imports := pkg.imports ++ [imp] }, iset ++ [imp]) rest
      else
        processItems root resolve ((t, pkg, iset) : ScanState) rest

/-- The filesystem directory of a package path (lines 56–59): strip the
module-root prefix and a leading slash, then join onto the root directory. -/
def resolvePath (t : Tree) (pkgName : String) : String :=
  goJoin t.rootDir (goTrimPre (goTrimPre pkgName t.rootPkgPath) "/")

/-- Fuel-indexed `Tree.Resolve` (lines 41–122 of `pkg/analysis/pkg.go`).
Returns `none` only on fuel exhaustion; otherwise the updated tree together
with the `error` result of the function. -/
def resolveGo (fs : FS) : Nat → Tree → String → Option (Tree × Except String Unit)
  | 0, _, _ => none
  | fuel + 1, t, pkgName =>
    -- idempotence check: already resolved
    if (lookupPkg t.packages pkgName).isSome then
      some (t, Except.ok ())
    else
      -- create and register the node before recursing
      let pkg0 : Pkg :=
        { name := pkgName
          internal := goStartsWith pkgName t.rootPkgPath
          files := []
          imports := []
          deps := [] }
      let t1 : Tree := { t with packages := t.packages ++ [(pkgName, pkg0)] }
      -- convert package path to filesystem path
      let pkgPath := resolvePath t pkgName
      if FS.stat fs pkgPath = false then
        -- "package directory not found, skipping"
        some (t1, Except.ok ())
      else
        match FS.parseDir fs pkgPath with
        | Except.error e =>
            some (t1, Except.error ("failed to parse package " ++ pkgName ++ " at "
              ++ pkgPath ++ ": " ++ e))
        | Except.ok files =>
            if files.isEmpty then
              some (t1, Except.error ("no Go packages found in directory " ++ pkgPath))
            else
              match processItems t.rootPkgPath (fun t' n => resolveGo fs fuel t' n)
                  (t1, pkg0, []) (scanItems files) with
              | none => none
              | some (t2, pkgF, _) =>
                  some ({ t2 with packages := setPkg t2.packages pkgName pkgF },
                    Except.ok ())

/-- Every import path mentioned anywhere in the (parse-error-free part of
the) filesystem: together with the initially requested path these are the
only names `Resolve` can ever register. -/
def FS.allImports (fs : FS) : List String :=
  fs.dirs.flatMap (fun e =>
    match e.2 with
    | Except.ok files => files.flatMap (fun f => f.imports)
    | Except.error _ => [])

/-- The import paths of `fs` as a finite set. -/
def FS.importSet (fs : FS) : Finset String :=
  fs.allImports.toFinset

/-- The keys of the `Packages` map as a finite set. -/
def Tree.keyset (t : Tree) : Finset String :=
  (t.packages.map (fun e => e.1)).toFinset

/-- Sufficient fuel for `resolveGo fs _ t pkgName`: one more than the number
of candidate package names not yet registered. -/
def fuelBound (fs : FS) (t : Tree) (pkgName : String) : Nat :=
  ((insert pkgName fs.importSet) \ t.keyset).card + 1

/-- `Tree.Resolve`: the fuel-indexed resolver run with sufficient fuel.
The default is never reached (see the termination theorem for claim C1). -/
def Tree.resolve (fs : FS) (t : Tree) (pkgName : String) :
    Tree × Except String Unit :=
  (resolveGo fs (fuelBound fs t pkgName) t pkgName).getD (t, Except.ok ())

/-- `Tree.FindReverseDependencies` (lines 124–145): linear scan over all
registered nodes, keeping each node that is not the queried package itself
and has it among its dependencies. -/
def Tree.findReverseDependencies (t : Tree) (pkgName : String) : List Pkg :=
  t.packages.foldl (fun deps e =>
    if e.2.name == pkgName then deps
    else if e.2.deps.any (fun d => d == pkgName) then deps ++ [e.2]
    else deps) []

/-- `Tree.IsInternal` (lines 147–150). -/
def Tree.isInternal (t : Tree) (pkgName : String) : Bool :=
  goStartsWith pkgName t.rootPkgPath

/-! ## Configuration (`pkg/config`)

The glob matcher `doublestar.Match` is an external library (not part of this
repository), so the predicates are parameterized by an arbitrary Boolean
matcher `globMatch pattern path`.  The Go code discards the error of `Match`
(`matched, _ := doublestar.Match(...)`), so an error is already modelled by
the matcher returning `false` for that pattern. -/

/-- `TargetConfig`. -/
structure TargetConfig where
  highLevelPackages : List String
  deriving DecidableEq, Repr

/-- `PatternConfig`. -/
structure PatternConfig where
  ignorePatterns : List String
  includePatterns : List String
  deriving DecidableEq, Repr

/-- `AnalysisConfig`. -/
structure AnalysisConfig where
  maxDepth : Int
  minImpactThreshold : Int
  deriving DecidableEq, Repr

/-- `CriticalConfig`. -/
structure CriticalConfig where
  packages : List String
  deriving DecidableEq, Repr

/-- `Config`. -/
structure Config where
  targets : TargetConfig
  patterns : PatternConfig
  analysis : AnalysisConfig
  critical : CriticalConfig
  deriving DecidableEq, Repr

/-- `Config.IsHighLevelPackage`: an empty pattern list makes every package a
target; otherwise the first-match loop is an `any`. -/
def Config.isHighLevelPackage (globMatch : String → String → Bool)
    (c : Config) (pkgPath : String) : Bool :=
  if c.targets.highLevelPackages.isEmpty then true
  else c.targets.highLevelPackages.any (fun pat => globMatch pat pkgPath)

/-- `Config.IsCriticalPackage`: first-match loop over the critical patterns. -/
def Config.isCriticalPackage (globMatch : String → String → Bool)
    (c : Config) (pkgPath : String) : Bool :=
  c.critical.packages.any (fun pat => globMatch pat pkgPath)

/-- `Config.ShouldIgnorePackage`: first-match loop over the ignore patterns. -/
def Config.shouldIgnorePackage (globMatch : String → String → Bool)
    (c : Config) (pkgPath : String) : Bool :=
  c.patterns.ignorePatterns.any (fun pat => globMatch pat pkgPath)

/-! ## Impact analysis (`Analyzer.AnalyzeChangedPackages`)

The analyzer walks the checkout and resolves every package directory into
the tree; the claims about the analysis itself take the resulting `Tree` as
input and model lines 92–186.  Go map iteration order is unspecified, so
each place where the code ranges over a map and the order could matter is
parameterized: the `Tree.packages` iteration order is the association-list
order (compared up to permutation in the determinism theorem), and the
three set-typed maps whose contents are dumped to a list before sorting
(`changedPkgs`, `directDeps`, `allAffectedPkgs`) are read through an
explicit `MapOrder` reordering oracle. -/

/-- `AffectedPackage`. -/
structure AffectedPackage where
  name : String
  isCritical : Bool
  deriving DecidableEq, Repr

instance : DecidableRel (fun a b : AffectedPackage => goStrLe a.name b.name = true) :=
  fun a b => instDecidableEqBool (goStrLe a.name b.name) true

instance : IsTotal AffectedPackage (fun a b => goStrLe a.name b.name = true) :=
  ⟨fun a b => total_of (fun x y : String => goStrLe x y = true) a.name b.name⟩

instance : IsTrans AffectedPackage (fun a b => goStrLe a.name b.name = true) :=
  ⟨fun a b c => IsTrans.trans (r := fun x y : String => goStrLe x y = true)
    a.name b.name c.name⟩

/-- `PackageImpact`. -/
structure PackageImpact where
  changedPackage : String
  affectedPackages : List AffectedPackage
  deriving DecidableEq, Repr

/-- `AnalysisResult`. -/
structure AnalysisResult where
  impacts : List PackageImpact
  directDependencies : List String
  indirectDependencies : List String
  deriving DecidableEq, Repr

/-- Insertion into a Go `map[string]bool` used as a set, viewed as the list
of keys in first-insertion order. -/
def insertNew (acc : List String) (x : String) : List String :=
  if x ∈ acc then acc else acc ++ [x]

/-- The arbitrary orders in which Go ranges over the three set-typed maps of
`AnalyzeChangedPackages`.  A lawful oracle may permute each list however it
likes (this is exactly the freedom the Go runtime has). -/
structure MapOrder where
  changedOrder : List String → List String
  directOrder : List String → List String
  affectedOrder : List String → List String

/-- The reordering oracle only ever permutes its input. -/
def MapOrder.Lawful (m : MapOrder) : Prop :=
  (∀ l, List.Perm (m.changedOrder l) l) ∧
  (∀ l, List.Perm (m.directOrder l) l) ∧
  (∀ l, List.Perm (m.affectedOrder l) l)

/-- The identity oracle (one admissible iteration order). -/
def MapOrder.id : MapOrder :=
  { changedOrder := fun l => l, directOrder := fun l => l, affectedOrder := fun l => l }

/-- The changed-package set (lines 93–109): directories of the changed
files that are Go sources and not test files, mapped to full package paths,
collected as a set in first-insertion order. -/
def changedPkgsOf (rootPkgPath : String) (changedFiles : List String) : List String :=
  changedFiles.foldl (fun acc file =>
    if !goEndsWith file ".go" || goEndsWith file "_test.go" then acc
    else
      let pkgPath := goDir file
      let fullPkgPath :=
        if pkgPath == "." then rootPkgPath else rootPkgPath ++ "/" ++ pkgPath
      insertNew acc fullPkgPath) []

/-- String comparison used by `sort.Strings`. -/
def strLe (a b : String) : Bool := decide (a ≤ b)

/-- Comparison used by the `sort.Slice` call on affected packages
(line 143): order by `Name`. -/
def affLe (a b : AffectedPackage) : Bool := decide (a.name ≤ b.name)

/-- Lines 121–151: for one changed package, the filter loop over its reverse
dependencies.  Threads the accumulating `allAffectedPkgs` set and returns
the per-package affected list (before sorting). -/
def affectedLoop (globMatch : String → String → Bool) (cfg : Config)
    (revDeps : List Pkg) (acc : List AffectedPackage × List String) :
    List AffectedPackage × List String :=
  revDeps.foldl (fun acc2 dep =>
    if cfg.shouldIgnorePackage globMatch dep.name then acc2
    else if !(cfg.isHighLevelPackage globMatch dep.name) then acc2
    else
      (acc2.1 ++ [{ name := dep.name
                    isCritical := cfg.isCriticalPackage globMatch dep.name }],
       insertNew acc2.2 dep.name)) acc

/-- One iteration of the second pass (lines 121–151): find the reverse
dependencies of one changed package, filter them, sort the survivors by
name, and append the impact entry; the `allAffectedPkgs` set is threaded
through. -/
def impactStep (globMatch : String → String → Bool) (cfg : Config) (t : Tree)
    (acc : List PackageImpact × List String) (pkgName : String) :
    List PackageImpact × List String :=
  let revDeps := t.findReverseDependencies pkgName
  let inner := affectedLoop globMatch cfg revDeps ([], acc.2)
  let sortedAffected := inner.1.insertionSort (fun a b => goStrLe a.name b.name = true)
  (acc.1 ++ [{ changedPackage := pkgName, affectedPackages := sortedAffected }],
   inner.2)

/-- One iteration of the direct-dependency collection (lines 154–161). -/
def directStep (t : Tree) (acc : List String) (pkgName : String) : List String :=
  match lookupPkg t.packages pkgName with
  | some p => p.deps.foldl insertNew acc
  | none => acc

/-- The filter condition of the second pass, as a predicate: a dependent
survives when it matches no ignore pattern and is a high-level target. -/
def survives (globMatch : String → String → Bool) (cfg : Config) (dep : Pkg) : Bool :=
  !(cfg.shouldIgnorePackage globMatch dep.name) && cfg.isHighLevelPackage globMatch dep.name

/-- The affected-package record built for a surviving dependent. -/
def mkAffected (globMatch : String → String → Bool) (cfg : Config) (dep : Pkg) :
    AffectedPackage :=
  { name := dep.name, isCritical := cfg.isCriticalPackage globMatch dep.name }

/-- `Analyzer.AnalyzeChangedPackages` (lines 92–186), after the tree-walk
has produced `t`. -/
def analyzeChangedPackages (globMatch : String → String → Bool) (cfg : Config)
    (ord : MapOrder) (t : Tree) (changedFiles : List String) : AnalysisResult :=
  let changedPkgs := changedPkgsOf t.rootPkgPath changedFiles
  let sortedChangedPkgs := (ord.changedOrder changedPkgs).insertionSort (fun a b => goStrLe a b = true)
  -- second pass: impacts and the set of all affected packages
  let second := sortedChangedPkgs.foldl (impactStep globMatch cfg t) ([], [])
  let impacts := second.1
  let allAffectedPkgs := second.2
  -- direct and indirect dependencies for the summary
  let directDeps := sortedChangedPkgs.foldl (directStep t) []
  let directDepList := (ord.directOrder directDeps).insertionSort (fun a b => goStrLe a b = true)
  let indirectDepList :=
    ((ord.affectedOrder allAffectedPkgs).foldl (fun acc pkg =>
        if directDeps.contains pkg then acc else acc ++ [pkg]) []).insertionSort
      (fun a b => goStrLe a b = true)
  { impacts := impacts
    directDependencies := directDepList
    indirectDependencies := indirectDepList }

/-! ## Report renderer (`AnalysisResult.String`, lines 189–238) -/

/-- One affected-package bullet line. -/
def renderAffected (p : AffectedPackage) : String :=
  if p.isCritical then "- 🚨 **`" ++ p.name ++ "`** (Critical)\n"
  else "- `" ++ p.name ++ "`\n"

/-- One changed-package section. -/
def renderImpact (impact : PackageImpact) : String :=
  "#### Changed Package: `" ++ impact.changedPackage ++ "`\n\n" ++
  (if impact.affectedPackages.length > 0 then
    "<details><summary>Affected Packages (" ++
      toString impact.affectedPackages.length ++ ")</summary>\n\n" ++
      String.join (impact.affectedPackages.map renderAffected) ++
      "\n</details>\n\n"
   else "This change does not affect any other packages.\n\n")

/-- `AnalysisResult.String`. -/
def AnalysisResult.render (r : AnalysisResult) : String :=
  let base := "<!-- dependency-guardian -->\n## 🔍 Dependency Impact Analysis\n\n"
  if r.impacts.length = 0 then
    base ++ "No changed packages found.\n"
  else
    let totalAffected :=
      ((r.impacts.flatMap (fun i => i.affectedPackages.map (fun p => p.name))).foldl
        insertNew []).length
    base ++ "### Changed Packages and Their Impacts\n\n" ++
      String.join (r.impacts.map renderImpact) ++
      "### Analysis Summary:\n\n" ++
      "- **Changed packages**: " ++ toString r.impacts.length ++ "\n" ++
      "- **Affected packages**: " ++ toString totalAffected ++ "\n" ++
      "- **Direct dependencies of changed packages**: " ++
        toString r.directDependencies.length ++ "\n" ++
      "- **Indirectly affected packages**: " ++
        toString r.indirectDependencies.length ++ "\n"

/-! ## Concrete fixtures used by witnesses and counterexamples -/

/-- A two-package import cycle under module root `"m"`: packages `m/a` and
`m/b` each import the other. -/
def cycleFS : FS :=
  { dirs := [("/r/a", Except.ok [⟨"/r/a/a.go", ["m/b"]⟩]),
             ("/r/b", Except.ok [⟨"/r/b/b.go", ["m/a"]⟩])] }

/-- A directory whose only source file is a test file. -/
def onlyTestsFS : FS :=
  { dirs := [("/r/t", Except.ok [⟨"/r/t/x_test.go", []⟩])] }

/-- Analyzer fixture: a resolved tree under root `m` where `m/c` depends
on `m/d`. -/
def analyzerTree : Tree :=
  { packages := [("m/c", ⟨"m/c", true, ["c.go"], ["m/d"], ["m/d"]⟩),
                 ("m/d", ⟨"m/d", true, ["d.go"], [], []⟩)],
    rootDir := "/r", rootPkgPath := "m" }

/-- A small concrete glob matcher for fixtures: `**` matches everything,
any other pattern matches only itself. -/
def defaultGlob : String → String → Bool := fun pat path =>
  pat == "**" || pat == path

/-- Analyzer fixture configuration: all packages are high-level targets,
test files are ignored, `m/c` is critical. -/
def analyzerCfg : Config :=
  { targets := ⟨["**"]⟩, patterns := ⟨["*_test.go"], []⟩, analysis := ⟨10, 0⟩,
    critical := ⟨["m/c"]⟩ }

/-- The analyzer fixture tree with its package map listed in the other
order — the same Go map, iterated differently. -/
def analyzerTreeRev : Tree :=
  { packages := [("m/d", ⟨"m/d", true, ["d.go"], [], []⟩),
                 ("m/c", ⟨"m/c", true, ["c.go"], ["m/d"], ["m/d"]⟩)],
    rootDir := "/r", rootPkgPath := "m" }

/-- A lawful reordering oracle that reverses every map iteration. -/
def reverseOrder : MapOrder :=
  { changedOrder := List.reverse, directOrder := List.reverse,
    affectedOrder := List.reverse }

/-! ## Basic lemmas about the embedding -/

/-- `listStarts` decides the character-list prefix relation. -/
theorem listStarts_iff (p : List Char) :
    ∀ s : List Char, listStarts s p = true ↔ p <+: s := by
  induction p with
  | nil => intro s; simp [listStarts]
  | cons d pre ih =>
    intro s
    cases s with
    | nil => simp [listStarts]
    | cons c s =>
      rw [show listStarts (c :: s) (d :: pre) = (c == d && listStarts s pre) from rfl]
      rw [List.cons_prefix_cons, Bool.and_eq_true, beq_iff_eq, ih]
      exact and_congr_left (fun _ => eq_comm)

/-- `goStartsWith` decides the plain string-prefix relation. -/
theorem goStartsWith_iff (s pre : String) :
    goStartsWith s pre = true ↔ pre.data <+: s.data :=
  listStarts_iff pre.data s.data

/-- A map lookup succeeds exactly on the registered keys. -/
theorem lookupPkg_isSome_iff (ps : List (String × Pkg)) (k : String) :
    (lookupPkg ps k).isSome = true ↔ k ∈ ps.map (fun e => e.1) := by
  induction ps with
  | nil => simp [lookupPkg]
  | cons e rest ih =>
    by_cases h : (e.1 == k) = true
    · have hl : lookupPkg (e :: rest) k = some e.2 := by
        unfold lookupPkg
        rw [List.find?_cons_of_pos (p := fun x : String × Pkg => x.1 == k) _ h]
        rfl
      rw [hl, List.map_cons]
      have hek : e.1 = k := beq_iff_eq.mp h
      simp [hek, List.mem_cons]
    · have hl : lookupPkg (e :: rest) k = lookupPkg rest k := by
        unfold lookupPkg
        rw [List.find?_cons_of_neg (p := fun x : String × Pkg => x.1 == k) _ h]
      have hne : ¬ k = e.1 := fun hh => h (beq_iff_eq.mpr hh.symm)
      rw [List.map_cons, hl, ih]
      simp [List.mem_cons, hne]

/-- A failed map lookup means the key is unregistered. -/
theorem lookupPkg_eq_none_iff (ps : List (String × Pkg)) (k : String) :
    lookupPkg ps k = none ↔ ¬ k ∈ ps.map (fun e => e.1) := by
  rw [← lookupPkg_isSome_iff, ← Option.not_isSome_iff_eq_none]

/-- The fold of `FindReverseDependencies` is a filter of the registered
nodes. -/
theorem findRev_foldl (q : String) (l : List (String × Pkg)) :
    ∀ acc : List Pkg,
      l.foldl (fun deps e =>
        if e.2.name == q then deps
        else if e.2.deps.any (fun d => d == q) then deps ++ [e.2] else deps) acc
      = acc ++ (l.map (fun e => e.2)).filter
          (fun p => !(p.name == q) && p.deps.any (fun d => d == q)) := by
  induction l with
  | nil => intro acc; simp
  | cons e rest ih =>
    intro acc
    rw [List.foldl_cons, List.map_cons, List.filter_cons]
    by_cases h : (e.2.name == q) = true
    · rw [if_pos h]
      have hc : (!(e.2.name == q) && e.2.deps.any fun d => d == q) = false := by
        rw [h, Bool.not_true, Bool.false_and]
      rw [hc, if_neg (by simp), ih]
    · rw [if_neg h]
      have hf : (e.2.name == q) = false := by
        exact Bool.not_eq_true _ ▸ (Bool.eq_false_iff.mpr (fun hh => h hh))
      by_cases h2 : (e.2.deps.any fun d => d == q) = true
      · rw [if_pos h2]
        have hc : (!(e.2.name == q) && e.2.deps.any fun d => d == q) = true := by
          rw [hf, h2, Bool.not_false, Bool.true_and]
        rw [hc, if_pos rfl, ih, List.append_assoc, List.singleton_append]
      · rw [if_neg h2]
        have h2f : (e.2.deps.any fun d => d == q) = false :=
          Bool.eq_false_iff.mpr (fun hh => h2 hh)
        have hc : (!(e.2.name == q) && e.2.deps.any fun d => d == q) = false := by
          rw [h2f, Bool.and_false]
        rw [hc, if_neg (by simp), ih]

/-- `FindReverseDependencies` as a filter over the registered nodes. -/
theorem findReverseDependencies_eq_filter (t : Tree) (q : String) :
    t.findReverseDependencies q =
      (t.packages.map (fun e => e.2)).filter
        (fun p => !(p.name == q) && p.deps.any (fun d => d == q)) := by
  unfold Tree.findReverseDependencies
  rw [findRev_foldl q t.packages [], List.nil_append]

/-! ## Claim C10 — `IsInternal` is a plain string-prefix test -/

/-- C10: a package path is classified as internal exactly when the root
package path is a plain character prefix of it; in particular
`"example.com/repo-other/x"` is treated as internal for root
`"example.com/repo"` even though it is not segment-aligned under it
(it is a different path and does not extend the root by `"/"`). -/
theorem claim_C10_isInternal_plain_prefix :
    (∀ (t : Tree) (pkgName : String),
      t.isInternal pkgName = true ↔ t.rootPkgPath.data <+: pkgName.data) ∧
    Tree.isInternal
      { packages := [], rootDir := "/r", rootPkgPath := "example.com/repo" }
      "example.com/repo-other/x" = true ∧
    ¬ String.data "example.com/repo/" <+: String.data "example.com/repo-other/x" ∧
    "example.com/repo-other/x" ≠ "example.com/repo" := by
  refine ⟨fun t pkgName => goStartsWith_iff pkgName t.rootPkgPath, by decide, by decide, by decide⟩

/-! ## Claim C9 — an empty critical list flags nothing -/

/-- C9: with an empty critical-package pattern list, `IsCriticalPackage`
returns `false` for every package path, whereas an empty high-level-target
list makes `IsHighLevelPackage` return `true` for every package path. -/
theorem claim_C9_empty_critical_flags_nothing :
    ∀ (globMatch : String → String → Bool) (c : Config) (pkgPath : String),
      (c.critical.packages = [] → c.isCriticalPackage globMatch pkgPath = false) ∧
      (c.targets.highLevelPackages = [] → c.isHighLevelPackage globMatch pkgPath = true) := by
  intro gm c p
  constructor
  · intro h
    simp [Config.isCriticalPackage, h]
  · intro h
    simp [Config.isHighLevelPackage, h]

/-- Concrete witness for C9. -/
theorem claim_C9_empty_critical_flags_nothing_witness :
    Config.isCriticalPackage (fun _ _ => true)
      { targets := ⟨[]⟩, patterns := ⟨[], []⟩, analysis := ⟨10, 0⟩, critical := ⟨[]⟩ }
      "example.com/repo/pkg/foo" = false ∧
    Config.isHighLevelPackage (fun _ _ => true)
      { targets := ⟨[]⟩, patterns := ⟨[], []⟩, analysis := ⟨10, 0⟩, critical := ⟨[]⟩ }
      "example.com/repo/pkg/foo" = true :=
  ⟨(claim_C9_empty_critical_flags_nothing (fun _ _ => true) _ _).1 rfl,
   (claim_C9_empty_critical_flags_nothing (fun _ _ => true) _ _).2 rfl⟩

/-! ## Claim C6 — reverse dependencies are exactly the direct dependents -/

/-- C6: `FindReverseDependencies` returns exactly the registered nodes whose
dependency list contains the queried path by name and whose own name differs
from it — one-hop dependents, not a transitive closure. -/
theorem claim_C6_findReverseDependencies_exact :
    ∀ (t : Tree) (pkgName : String) (p : Pkg),
      p ∈ t.findReverseDependencies pkgName ↔
        (p ∈ t.packages.map (fun e => e.2) ∧ p.name ≠ pkgName ∧ pkgName ∈ p.deps) := by
  intro t q p
  rw [findReverseDependencies_eq_filter, List.mem_filter]
  simp only [Bool.and_eq_true, Bool.not_eq_true', beq_eq_false_iff_ne, ne_eq,
    List.any_eq_true, beq_iff_eq]
  constructor
  · rintro ⟨hmem, hne, d, hd, rfl⟩
    exact ⟨hmem, hne, hd⟩
  · rintro ⟨hmem, hne, hd⟩
    exact ⟨hmem, hne, q, hd, rfl⟩

/-! ## Claim C2 — resolution of an already-present path is a no-op -/

/-- C2: if a package path is already present in the package map, `Resolve`
returns success immediately and the whole tree is unchanged: the map and
the files, the import lists and the dependencies of every node. -/
theorem claim_C2_resolve_idempotent :
    ∀ (fs : FS) (t : Tree) (pkgName : String),
      (lookupPkg t.packages pkgName).isSome = true →
      Tree.resolve fs t pkgName = (t, Except.ok ()) := by
  intro fs t n h
  unfold Tree.resolve fuelBound
  simp [resolveGo, h]

/-- Concrete witness for C2: re-resolving the already-registered path
`"m/a"` leaves the tree untouched even though its directory would now parse
differently. -/
theorem claim_C2_resolve_idempotent_witness :
    Tree.resolve
      { dirs := [("/r/a", Except.ok [⟨"/r/a/a.go", ["m/b"]⟩])] }
      { packages := [("m/a", ⟨"m/a", true, [], [], []⟩)],
        rootDir := "/r", rootPkgPath := "m" } "m/a"
    = ({ packages := [("m/a", ⟨"m/a", true, [], [], []⟩)],
         rootDir := "/r", rootPkgPath := "m" }, Except.ok ()) :=
  claim_C2_resolve_idempotent _ _ _ (by decide)

/-! ## Claim C5 — a missing directory yields an empty node and success -/

/-- C5: resolving a package path whose directory does not exist registers an
empty node (no files, no imports, no dependencies) under that path and
returns success, never an error. -/
theorem claim_C5_missing_directory_empty_node :
    ∀ (fs : FS) (t : Tree) (pkgName : String),
      lookupPkg t.packages pkgName = none →
      FS.stat fs (resolvePath t pkgName) = false →
      Tree.resolve fs t pkgName =
        ({ t with packages := t.packages ++
            [(pkgName,
              { name := pkgName
                internal := goStartsWith pkgName t.rootPkgPath
                files := [], imports := [], deps := [] })] },
         Except.ok ()) := by
  intro fs t n h1 h2
  unfold Tree.resolve fuelBound
  simp [resolveGo, h1, h2]

/-! ## Termination of `Resolve`

Register-before-recurse makes the set of unregistered candidate names a
strictly decreasing measure: every recursive call is on an import path of
the filesystem, and happens in a state where the calling package has
already been registered. -/

/-- Registering a node adds its key to the key set. -/
theorem keyset_append (t : Tree) (k : String) (p : Pkg) :
    Tree.keyset { t with packages := t.packages ++ [(k, p)] } = insert k t.keyset := by
  unfold Tree.keyset
  rw [List.map_append, List.toFinset_append]
  simp [Finset.union_comm, Finset.insert_eq]

/-- Overwriting the value of an entry does not change the keys. -/
theorem setPkg_map_fst (ps : List (String × Pkg)) (k : String) (p : Pkg) :
    (setPkg ps k p).map (fun e => e.1) = ps.map (fun e => e.1) := by
  unfold setPkg
  rw [List.map_map]
  apply List.map_congr_left
  intro e _
  show (if e.1 == k then (e.1, p) else e).1 = e.1
  split
  · rfl
  · rfl

/-- Key-set membership is membership in the key list. -/
theorem mem_keyset_iff (t : Tree) (k : String) :
    k ∈ t.keyset ↔ k ∈ t.packages.map (fun e => e.1) := by
  unfold Tree.keyset
  exact List.mem_toFinset

/-- Every import of a parsed directory is in the import set of the filesystem. -/
theorem parseDir_imports_mem (fs : FS) (path : String) (files : List GoFile)
    (h : fs.parseDir path = Except.ok files) :
    ∀ f ∈ files, ∀ i ∈ f.imports, i ∈ fs.importSet := by
  intro f hf i hi
  unfold FS.parseDir at h
  cases hfind : fs.dirs.find? (fun e => e.1 == path) with
  | none => rw [hfind] at h; cases h
  | some e =>
    rw [hfind] at h
    change e.2 = Except.ok files at h
    have he : e ∈ fs.dirs := List.mem_of_find?_eq_some hfind
    unfold FS.importSet
    rw [List.mem_toFinset]
    unfold FS.allImports
    rw [List.mem_flatMap]
    refine ⟨e, he, ?_⟩
    rw [h, List.mem_flatMap]
    exact ⟨f, hf, hi⟩

/-- Import declarations among the scan items come from the import lists of
the files. -/
theorem scanItems_importDecl_mem (files : List GoFile) (i : String)
    (h : ScanItem.importDecl i ∈ scanItems files) :
    ∃ f ∈ files, i ∈ f.imports := by
  unfold scanItems at h
  rw [List.mem_flatMap] at h
  obtain ⟨f, hf, hi⟩ := h
  refine ⟨f, hf, ?_⟩
  by_cases ht : goEndsWith f.fname "_test.go" = true
  · rw [if_pos ht] at hi
    cases hi
  · rw [if_neg ht] at hi
    rcases List.mem_cons.mp hi with h1 | h2
    · cases h1
    · obtain ⟨x, hx, hxe⟩ := List.mem_map.mp h2
      cases hxe
      exact hx

/-- The file/import loop only grows the set of registered keys, provided
the recursive resolver does. -/
theorem processItems_keys_mono (root : String)
    (resolve : Tree → String → Option (Tree × Except String Unit))
    (hres : ∀ t n out, resolve t n = some out →
      ∀ k, k ∈ t.packages.map (fun e => e.1) → k ∈ out.1.packages.map (fun e => e.1)) :
    ∀ (items : List ScanItem) (st out : ScanState),
      processItems root resolve st items = some out →
      ∀ k, k ∈ st.1.packages.map (fun e => e.1) → k ∈ out.1.packages.map (fun e => e.1) := by
  intro items
  induction items with
  | nil =>
    intro st out h k hk
    cases h
    exact hk
  | cons item rest ih =>
    intro st out h k hk
    obtain ⟨t, pkg, iset⟩ := st
    cases item with
    | srcFile f =>
      exact ih _ _ h k hk
    | importDecl imp =>
      rw [show processItems root resolve (t, pkg, iset) (ScanItem.importDecl imp :: rest)
            = if goStartsWith imp root && !(iset.contains imp) then
                match resolve t imp with
                | none => none
                | some (t', Except.error _) =>
                    processItems root resolve
                      (t', { pkg with imports := pkg.imports ++ [imp] }, iset ++ [imp]) rest
                | some (t', Except.ok _) =>
                    match lookupPkg t'.packages imp with
                    | some _ =>
                        processItems root resolve
                          (t', { pkg with
                                 imports := pkg.imports ++ [imp]
                                 deps := pkg.deps ++ [imp] }, iset ++ [imp]) rest
                    | none =>
                        processItems root resolve
                          (t', { pkg with imports := pkg.imports ++ [imp] }, iset ++ [imp]) rest
              else processItems root resolve (t, pkg, iset) rest
          from rfl] at h
      by_cases hc : (goStartsWith imp root && !(iset.contains imp)) = true
      · rw [if_pos hc] at h
        split at h
        · cases h
        · rename_i t' e hr
          exact ih _ _ h k (hres t imp _ hr k hk)
        · rename_i t' u hr
          split at h
          · rename_i p0 hl
            exact ih _ _ h k (hres t imp _ hr k hk)
          · rename_i hl
            exact ih _ _ h k (hres t imp _ hr k hk)
      · rw [if_neg hc] at h
        exact ih _ _ h k hk

/-- `resolveGo` only grows the set of registered keys. -/
theorem resolveGo_keys_mono (fs : FS) :
    ∀ (fuel : Nat) (t : Tree) (n : String) (out : Tree × Except String Unit),
      resolveGo fs fuel t n = some out →
      ∀ k, k ∈ t.packages.map (fun e => e.1) → k ∈ out.1.packages.map (fun e => e.1) := by
  intro fuel
  induction fuel with
  | zero => intro t n out h; cases h
  | succ fuel ih =>
    intro t n out h k hk
    simp only [resolveGo] at h
    by_cases hp : (lookupPkg t.packages n).isSome = true
    · rw [if_pos hp] at h
      cases h
      exact hk
    · rw [if_neg hp] at h
      have hk1 : ∀ p0 : Pkg, k ∈ (t.packages ++ [(n, p0)]).map (fun e => e.1) := by
        intro p0
        rw [List.map_append, List.mem_append]
        exact Or.inl hk
      split at h
      · cases h
        exact hk1 _
      · split at h
        · cases h
          exact hk1 _
        · split at h
          · cases h
            exact hk1 _
          · split at h
            · cases h
            · rename_i t2 pkgF s2 hpi
              cases h
              show k ∈ (setPkg t2.packages n pkgF).map (fun e => e.1)
              rw [setPkg_map_fst]
              exact processItems_keys_mono _ _ (fun a b c hh => ih a b c hh) _ _ _ hpi k (hk1 _)

/-- Shrinking measure step: once the requested name is registered, the
unregistered part of the candidate set is strictly smaller. -/
theorem card_step (u k : Finset String) (n : String) (fuel : Nat)
    (hn : ¬ n ∈ k) (h : (insert n u \ k).card < fuel + 1) :
    (u \ insert n k).card < fuel := by
  have h1 : u \ insert n k ⊆ (insert n u \ k).erase n := by
    intro x hx
    rw [Finset.mem_sdiff, Finset.mem_insert] at hx
    rw [Finset.mem_erase, Finset.mem_sdiff, Finset.mem_insert]
    constructor
    · intro hxn
      exact hx.2 (Or.inl hxn)
    · exact ⟨Or.inr hx.1, fun hxk => hx.2 (Or.inr hxk)⟩
  have h2 : n ∈ insert n u \ k :=
    Finset.mem_sdiff.mpr ⟨Finset.mem_insert_self n u, hn⟩
  have h3 := Finset.card_erase_lt_of_mem h2
  have h4 := Finset.card_le_card h1
  omega

/-- Fuel sufficiency for the file/import loop: if the resolver succeeds on
any import-set name with the given fuel, the loop succeeds. -/
theorem processItems_isSome (fs : FS) (fuel : Nat) (root : String)
    (hcall : ∀ (t : Tree) (n : String), n ∈ fs.importSet →
      (fs.importSet \ t.keyset).card < fuel → (resolveGo fs fuel t n).isSome = true) :
    ∀ (items : List ScanItem) (st : ScanState),
      (∀ i, ScanItem.importDecl i ∈ items → i ∈ fs.importSet) →
      (fs.importSet \ st.1.keyset).card < fuel →
      (processItems root (fun a b => resolveGo fs fuel a b) st items).isSome = true := by
  intro items
  induction items with
  | nil => intro st _ _; rfl
  | cons item rest ih =>
    intro st hin hcard
    obtain ⟨t, pkg, iset⟩ := st
    cases item with
    | srcFile f =>
      exact ih _ (fun i hi => hin i (List.mem_cons_of_mem _ hi)) hcard
    | importDecl imp =>
      show (processItems root (fun a b => resolveGo fs fuel a b) (t, pkg, iset)
        (ScanItem.importDecl imp :: rest)).isSome = true
      rw [show processItems root (fun a b => resolveGo fs fuel a b) (t, pkg, iset)
            (ScanItem.importDecl imp :: rest)
            = if goStartsWith imp root && !(iset.contains imp) then
                match resolveGo fs fuel t imp with
                | none => none
                | some (t', Except.error _) =>
                    processItems root (fun a b => resolveGo fs fuel a b)
                      (t', { pkg with imports := pkg.imports ++ [imp] }, iset ++ [imp]) rest
                | some (t', Except.ok _) =>
                    match lookupPkg t'.packages imp with
                    | some _ =>
                        processItems root (fun a b => resolveGo fs fuel a b)
                          (t', { pkg with
                                 imports := pkg.imports ++ [imp]
                                 deps := pkg.deps ++ [imp] }, iset ++ [imp]) rest
                    | none =>
                        processItems root (fun a b => resolveGo fs fuel a b)
                          (t', { pkg with imports := pkg.imports ++ [imp] }, iset ++ [imp]) rest
              else processItems root (fun a b => resolveGo fs fuel a b) (t, pkg, iset) rest
          from rfl]
      by_cases hc : (goStartsWith imp root && !(iset.contains imp)) = true
      · rw [if_pos hc]
        have hs := hcall t imp (hin imp (List.mem_cons_self _ _)) hcard
        obtain ⟨out, hout⟩ := Option.isSome_iff_exists.mp hs
        rw [hout]
        obtain ⟨t', r⟩ := out
        have hmono : (fs.importSet \ Tree.keyset t').card < fuel := by
          have hsub : t.keyset ⊆ t'.keyset := by
            intro x hx
            rw [mem_keyset_iff] at hx ⊢
            exact resolveGo_keys_mono fs fuel t imp _ hout x hx
          exact lt_of_le_of_lt
            (Finset.card_le_card (Finset.sdiff_subset_sdiff (Finset.Subset.refl _) hsub))
            hcard
        have hrest : ∀ i, ScanItem.importDecl i ∈ rest → i ∈ fs.importSet :=
          fun i hi => hin i (List.mem_cons_of_mem _ hi)
        cases r with
        | error e => exact ih _ hrest hmono
        | ok u =>
          show (match lookupPkg t'.packages imp with
                | some _ =>
                    processItems root (fun a b => resolveGo fs fuel a b)
                      (t', { pkg with
                             imports := pkg.imports ++ [imp]
                             deps := pkg.deps ++ [imp] }, iset ++ [imp]) rest
                | none =>
                    processItems root (fun a b => resolveGo fs fuel a b)
                      (t', { pkg with imports := pkg.imports ++ [imp] },
                        iset ++ [imp]) rest).isSome = true
          cases hl : lookupPkg t'.packages imp with
          | some p0 => exact ih _ hrest hmono
          | none => exact ih _ hrest hmono
      · rw [if_neg hc]
        exact ih _ (fun i hi => hin i (List.mem_cons_of_mem _ hi)) hcard

/-- Fuel sufficiency for `resolveGo`: fuel exceeding the number of
unregistered candidate names guarantees a result. -/
theorem resolveGo_isSome (fs : FS) :
    ∀ (fuel : Nat) (t : Tree) (n : String),
      ((insert n fs.importSet) \ t.keyset).card < fuel →
      (resolveGo fs fuel t n).isSome = true := by
  intro fuel
  induction fuel with
  | zero => intro t n h; exact absurd h (Nat.not_lt_zero _)
  | succ fuel ih =>
    intro t n hcard
    by_cases hp : (lookupPkg t.packages n).isSome = true
    · simp only [resolveGo, if_pos hp]
      rfl
    · have hn : ¬ n ∈ t.keyset := by
        rw [mem_keyset_iff]
        intro hmem
        exact hp ((lookupPkg_isSome_iff t.packages n).mpr hmem)
      have hcard1 : (fs.importSet \ Tree.keyset { t with packages := t.packages ++
          [(n, { name := n, internal := goStartsWith n t.rootPkgPath,
                 files := [], imports := [], deps := [] })] }).card < fuel := by
        rw [keyset_append]
        exact card_step fs.importSet t.keyset n fuel hn hcard
      cases hstat : FS.stat fs (resolvePath t n) with
      | false =>
        simp only [resolveGo, if_neg hp, hstat]
        rfl
      | true =>
        cases hparse : fs.parseDir (resolvePath t n) with
        | error e =>
          simp only [resolveGo, if_neg hp, hstat, hparse]
          rfl
        | ok files =>
          cases hemp : files.isEmpty with
          | true =>
            simp only [resolveGo, if_neg hp, hstat, hparse, hemp]
            rfl
          | false =>
            have hpi : (processItems t.rootPkgPath (fun a b => resolveGo fs fuel a b)
                ({ t with packages := t.packages ++
                    [(n, { name := n, internal := goStartsWith n t.rootPkgPath,
                           files := [], imports := [], deps := [] })] },
                 { name := n, internal := goStartsWith n t.rootPkgPath,
                   files := [], imports := [], deps := [] }, [])
                (scanItems files)).isSome = true := by
              apply processItems_isSome fs fuel t.rootPkgPath
              · intro t' n' hn' hcd
                apply ih t' n'
                rwa [Finset.insert_eq_self.mpr hn']
              · intro i hi
                obtain ⟨f, hf, hif⟩ := scanItems_importDecl_mem files i hi
                exact parseDir_imports_mem fs (resolvePath t n) files hparse f hf i hif
              · exact hcard1
            obtain ⟨st2, hst2⟩ := Option.isSome_iff_exists.mp hpi
            obtain ⟨t2, pkgF, s2⟩ := st2
            simp only [resolveGo, if_neg hp, hstat, hparse, hemp, hst2]
            rfl

/-- Concrete witness for C5. -/
theorem claim_C5_missing_directory_empty_node_witness :
    Tree.resolve { dirs := [] } (newTree "/r" "m") "m/gone"
    = ({ packages := [("m/gone", ⟨"m/gone", true, [], [], []⟩)],
         rootDir := "/r", rootPkgPath := "m" }, Except.ok ()) :=
  claim_C5_missing_directory_empty_node _ _ _ (by decide) (by decide)

/-! ## Characterization of the analysis pipeline -/

/-- Membership after a set insertion. -/
theorem mem_insertNew (acc : List String) (y x : String) :
    x ∈ insertNew acc y ↔ x ∈ acc ∨ x = y := by
  unfold insertNew
  split
  · rename_i h
    constructor
    · exact Or.inl
    · rintro (hx | rfl)
      · exact hx
      · exact h
  · simp [List.mem_append]

/-- Set insertion preserves distinctness. -/
theorem nodup_insertNew (acc : List String) (y : String) (h : acc.Nodup) :
    (insertNew acc y).Nodup := by
  unfold insertNew
  split
  · exact h
  · rename_i hy
    rw [List.Perm.nodup_iff (List.perm_append_singleton y acc)]
    exact List.nodup_cons.mpr ⟨hy, h⟩

/-- Membership after folding a list into a set. -/
theorem foldl_insertNew_mem (l : List String) :
    ∀ (acc : List String) (x : String),
      x ∈ l.foldl insertNew acc ↔ x ∈ acc ∨ x ∈ l := by
  induction l with
  | nil => intro acc x; simp
  | cons y rest ih =>
    intro acc x
    rw [List.foldl_cons, ih, mem_insertNew]
    simp [List.mem_cons]
    tauto

/-- Folding a list into a set preserves distinctness. -/
theorem foldl_insertNew_nodup (l : List String) :
    ∀ acc : List String, acc.Nodup → (l.foldl insertNew acc).Nodup := by
  induction l with
  | nil => intro acc h; exact h
  | cons y rest ih =>
    intro acc h
    rw [List.foldl_cons]
    exact ih _ (nodup_insertNew acc y h)

/-- A skip/append fold is a filter. -/
theorem foldl_skip_filter (q : String → Bool) (l : List String) :
    ∀ acc : List String,
      l.foldl (fun acc x => if q x then acc else acc ++ [x]) acc
        = acc ++ l.filter (fun x => !(q x)) := by
  induction l with
  | nil => intro acc; simp
  | cons y rest ih =>
    intro acc
    rw [List.foldl_cons, List.filter_cons]
    by_cases h : q y = true
    · rw [if_pos h, ih]
      have : (!(q y)) = false := by rw [h]; rfl
      rw [this, if_neg (by simp)]
    · have hf : q y = false := Bool.eq_false_iff.mpr (fun hh => h hh)
      rw [if_neg h, ih]
      have : (!(q y)) = true := by rw [hf]; rfl
      rw [this, if_pos rfl, List.append_assoc, List.singleton_append]

/-- The filter loop of the second pass (lines 124–141) appends exactly the
surviving dependents, in scan order, and inserts their names into the
`allAffectedPkgs` set. -/
theorem affectedLoop_eq (gm : String → String → Bool) (cfg : Config) :
    ∀ (revDeps : List Pkg) (acc : List AffectedPackage × List String),
      affectedLoop gm cfg revDeps acc =
        (acc.1 ++ (revDeps.filter (survives gm cfg)).map (mkAffected gm cfg),
         ((revDeps.filter (survives gm cfg)).map (fun dep => dep.name)).foldl
           insertNew acc.2) := by
  intro revDeps
  induction revDeps with
  | nil => intro acc; simp [affectedLoop]
  | cons dep rest ih =>
    intro acc
    unfold affectedLoop at ih ⊢
    rw [List.foldl_cons, List.filter_cons]
    by_cases hig : cfg.shouldIgnorePackage gm dep.name = true
    · have hs : survives gm cfg dep = false := by
        unfold survives
        rw [hig, Bool.not_true, Bool.false_and]
      rw [if_pos hig, hs, if_neg (by simp)]
      exact ih acc
    · have higf : cfg.shouldIgnorePackage gm dep.name = false :=
        Bool.eq_false_iff.mpr (fun hh => hig hh)
      rw [if_neg hig]
      by_cases hhl : cfg.isHighLevelPackage gm dep.name = true
      · have hs : survives gm cfg dep = true := by
          unfold survives
          rw [higf, hhl, Bool.not_false, Bool.true_and]
        have hb : (!(cfg.isHighLevelPackage gm dep.name)) = false := by
          rw [hhl]; rfl
        rw [hb, if_neg (by simp), hs, if_pos rfl]
        rw [ih]
        simp [mkAffected, List.append_assoc]
      · have hhlf : cfg.isHighLevelPackage gm dep.name = false :=
          Bool.eq_false_iff.mpr (fun hh => hhl hh)
        have hs : survives gm cfg dep = false := by
          unfold survives
          rw [hhlf, Bool.and_false]
        have hb : (!(cfg.isHighLevelPackage gm dep.name)) = true := by
          rw [hhlf]; rfl
        rw [hb, if_pos rfl, hs, if_neg (by simp)]
        exact ih acc

/-- The second pass (lines 112–151) appends one impact per changed package,
each holding the sorted surviving dependents, and accumulates all surviving
dependent names into a set. -/
theorem foldl_impactStep_spec (gm : String → String → Bool) (cfg : Config) (t : Tree) :
    ∀ (qs : List String) (acc : List PackageImpact × List String),
      qs.foldl (impactStep gm cfg t) acc =
        (acc.1 ++ qs.map (fun q =>
          { changedPackage := q
            affectedPackages :=
              (((t.findReverseDependencies q).filter (survives gm cfg)).map
                (mkAffected gm cfg)).insertionSort (fun a b => goStrLe a.name b.name = true) }),
         qs.foldl (fun a q =>
            (((t.findReverseDependencies q).filter (survives gm cfg)).map
              (fun dep => dep.name)).foldl insertNew a) acc.2) := by
  intro qs
  induction qs with
  | nil => intro acc; simp
  | cons q rest ih =>
    intro acc
    rw [List.foldl_cons, List.foldl_cons]
    rw [show impactStep gm cfg t acc q =
      (acc.1 ++ [{ changedPackage := q
                   affectedPackages :=
                     ((affectedLoop gm cfg (t.findReverseDependencies q) ([], acc.2)).1).insertionSort
                       (fun a b => goStrLe a.name b.name = true) }],
       (affectedLoop gm cfg (t.findReverseDependencies q) ([], acc.2)).2) from rfl]
    rw [ih]
    rw [affectedLoop_eq gm cfg (t.findReverseDependencies q) ([], acc.2)]
    simp only [List.map_cons, List.nil_append]
    rw [List.append_assoc, List.singleton_append]

/-- Collecting direct dependencies preserves distinctness. -/
theorem foldl_directStep_nodup (t : Tree) (qs : List String) :
    ∀ acc : List String, acc.Nodup → (qs.foldl (directStep t) acc).Nodup := by
  induction qs with
  | nil => intro acc h; exact h
  | cons q rest ih =>
    intro acc h
    rw [List.foldl_cons]
    apply ih
    unfold directStep
    cases lookupPkg t.packages q with
    | some p => exact foldl_insertNew_nodup _ _ h
    | none => exact h

/-- Membership in the accumulated `allAffectedPkgs` set. -/
theorem foldl_affected_mem (gm : String → String → Bool) (cfg : Config) (t : Tree)
    (qs : List String) :
    ∀ (acc : List String) (x : String),
      (x ∈ qs.foldl (fun a q =>
          (((t.findReverseDependencies q).filter (survives gm cfg)).map
            (fun dep => dep.name)).foldl insertNew a) acc) ↔
        x ∈ acc ∨ ∃ q ∈ qs,
          x ∈ ((t.findReverseDependencies q).filter (survives gm cfg)).map
            (fun dep => dep.name) := by
  induction qs with
  | nil => intro acc x; simp
  | cons q rest ih =>
    intro acc x
    rw [List.foldl_cons, ih, foldl_insertNew_mem]
    simp only [List.mem_cons]
    constructor
    · rintro (⟨hx | hx⟩ | ⟨q2, hq2, hx⟩)
      · exact Or.inl hx
      · exact Or.inr ⟨q, Or.inl rfl, hx⟩
      · exact Or.inr ⟨q2, Or.inr hq2, hx⟩
    · rintro (hx | ⟨q2, hq2 | hq2, hx⟩)
      · exact Or.inl (Or.inl hx)
      · exact Or.inl (Or.inr (hq2 ▸ hx))
      · exact Or.inr ⟨q2, hq2, hx⟩

/-- The accumulated `allAffectedPkgs` set is distinct. -/
theorem foldl_affected_nodup (gm : String → String → Bool) (cfg : Config) (t : Tree)
    (qs : List String) :
    ∀ acc : List String, acc.Nodup →
      (qs.foldl (fun a q =>
          (((t.findReverseDependencies q).filter (survives gm cfg)).map
            (fun dep => dep.name)).foldl insertNew a) acc).Nodup := by
  induction qs with
  | nil => intro acc h; exact h
  | cons q rest ih =>
    intro acc h
    rw [List.foldl_cons]
    exact ih _ (foldl_insertNew_nodup _ _ h)

/-! ## Claim C1 — cycle-safe termination of `Resolve` -/

/-- C1: `Tree.Resolve` always terminates — on every filesystem, tree and
package path the fuel `fuelBound` (one more than the number of unregistered
candidate names) suffices, because each node is registered before its
itself recursively resolved — and on the concrete two-package cycle
`m/a ↔ m/b` resolution succeeds with each node holding the other in its
dependency list. -/
theorem claim_C1_cycle_safe_termination :
    (∀ (fs : FS) (t : Tree) (pkgName : String),
      (resolveGo fs (fuelBound fs t pkgName) t pkgName).isSome = true) ∧
    (Tree.resolve cycleFS (newTree "/r" "m") "m/a").2 = Except.ok () ∧
    (lookupPkg (Tree.resolve cycleFS (newTree "/r" "m") "m/a").1.packages "m/a").map
      (fun p => p.deps) = some ["m/b"] ∧
    (lookupPkg (Tree.resolve cycleFS (newTree "/r" "m") "m/a").1.packages "m/b").map
      (fun p => p.deps) = some ["m/a"] := by
  refine ⟨?_, by decide, by decide, by decide⟩
  intro fs t n
  apply resolveGo_isSome
  unfold fuelBound
  exact Nat.lt_succ_self _

/-! ## Claim C4 — when resolution reports a parse error

The claim as stated fails on the code: the `len(pkgs) == 0` check of
`Resolve` runs on the raw `ParseDir` result, *before* test files are
excluded, so a directory whose only source files are test files parses to a
non-empty package map and `Resolve` returns success with an empty node. -/

/-- C4 counterexample: the directory `/r/t` exists and its only source file
is a test file — so it contains no parseable source at all after excluding
test files — yet resolving `m/t` returns success (not a `ParseError`) and
registers an empty node. -/
theorem claim_C4_counterexample :
    FS.stat onlyTestsFS "/r/t" = true ∧
    FS.parseDir onlyTestsFS "/r/t" = Except.ok [⟨"/r/t/x_test.go", []⟩] ∧
    goEndsWith "/r/t/x_test.go" "_test.go" = true ∧
    (Tree.resolve onlyTestsFS (newTree "/r" "m") "m/t").2 = Except.ok () ∧
    lookupPkg (Tree.resolve onlyTestsFS (newTree "/r" "m") "m/t").1.packages "m/t"
      = some { name := "m/t", internal := true, files := [], imports := [], deps := [] } := by
  decide

/-- C4 (amended): resolving an unregistered package whose directory exists
fails exactly when `ParseDir` fails or reports no `.go` files at all —
test files included, since the emptiness check precedes the test-file
exclusion. -/
theorem claim_C4_amended_parse_failure :
    ∀ (fs : FS) (t : Tree) (pkgName : String),
      lookupPkg t.packages pkgName = none →
      FS.stat fs (resolvePath t pkgName) = true →
      ((Tree.resolve fs t pkgName).2 = Except.ok () ↔
        ∃ files, FS.parseDir fs (resolvePath t pkgName) = Except.ok files ∧ files ≠ []) := by
  intro fs t n h1 h2
  cases hparse : fs.parseDir (resolvePath t n) with
  | error e =>
    simp [Tree.resolve, fuelBound, resolveGo, h1, h2, hparse]
  | ok files =>
    cases files with
    | nil =>
      simp [Tree.resolve, fuelBound, resolveGo, h1, h2, hparse]
    | cons f fsr =>
      have hlt : ((insert n fs.importSet) \ t.keyset).card < fuelBound fs t n := by
        unfold fuelBound
        exact Nat.lt_succ_self _
      obtain ⟨out, hout⟩ := Option.isSome_iff_exists.mp (resolveGo_isSome fs _ t n hlt)
      have hres : Tree.resolve fs t n = out := by
        unfold Tree.resolve
        rw [hout]
        rfl
      have hout2 := hout
      simp [resolveGo, fuelBound, h1, h2, hparse] at hout2
      split at hout2
      · cases hout2
      · rename_i t2 pkgF s2 hpi
        cases hout2
        rw [hres]
        exact iff_of_true rfl ⟨f :: fsr, rfl, by simp⟩

/-- Concrete witness for C4 (amended): an empty existing directory makes
resolution fail, and both error hypotheses are decidably checked. -/
theorem claim_C4_amended_parse_failure_witness :
    lookupPkg (newTree "/r" "m").packages "m/e" = none ∧
    FS.stat { dirs := [("/r/e", Except.ok [])] } (resolvePath (newTree "/r" "m") "m/e") = true ∧
    ¬ (Tree.resolve { dirs := [("/r/e", Except.ok [])] } (newTree "/r" "m") "m/e").2
        = Except.ok () :=
  ⟨by decide, by decide, fun hok =>
    by
      have h := (claim_C4_amended_parse_failure
        { dirs := [("/r/e", Except.ok [])] } (newTree "/r" "m") "m/e"
        (by decide) (by decide)).mp hok
      obtain ⟨files, hf, hne⟩ := h
      have : files = [] := by
        have hd : FS.parseDir { dirs := [("/r/e", Except.ok [])] }
            (resolvePath (newTree "/r" "m") "m/e") = Except.ok [] := by decide
        rw [hd] at hf
        cases hf
        rfl
      exact hne this⟩

/-- The identity reordering oracle is lawful. -/
theorem mapOrder_id_lawful : MapOrder.Lawful MapOrder.id :=
  ⟨fun l => List.Perm.refl l, fun l => List.Perm.refl l, fun l => List.Perm.refl l⟩

/-- The impacts of an analysis: one entry per changed package, in sorted
order, holding the sorted surviving dependents. -/
theorem analyze_impacts_eq (gm : String → String → Bool) (cfg : Config)
    (ord : MapOrder) (t : Tree) (changedFiles : List String) :
    (analyzeChangedPackages gm cfg ord t changedFiles).impacts =
      ((ord.changedOrder (changedPkgsOf t.rootPkgPath changedFiles)).insertionSort
        (fun a b => goStrLe a b = true)).map (fun q =>
          { changedPackage := q
            affectedPackages :=
              (((t.findReverseDependencies q).filter (survives gm cfg)).map
                (mkAffected gm cfg)).insertionSort (fun a b => goStrLe a.name b.name = true) }) := by
  show (List.foldl (impactStep gm cfg t) ([], [])
      ((ord.changedOrder (changedPkgsOf t.rootPkgPath changedFiles)).insertionSort
        (fun a b => goStrLe a b = true))).1 = _
  rw [foldl_impactStep_spec]
  rfl

/-! ## Claim C7 — filtering correctness of the affected-package lists -/

/-- C7: in every impact of an analysis result, every listed affected
package matches no ignore pattern, and — when the high-level-target list is
non-empty — matches at least one target pattern; conversely, when the
target list is empty, every non-ignored reverse dependency of the changed
package is listed. -/
theorem claim_C7_filtering_correct :
    ∀ (gm : String → String → Bool) (cfg : Config) (ord : MapOrder) (t : Tree)
      (changedFiles : List String) (impact : PackageImpact),
      impact ∈ (analyzeChangedPackages gm cfg ord t changedFiles).impacts →
      (∀ a ∈ impact.affectedPackages,
        cfg.shouldIgnorePackage gm a.name = false ∧
        (cfg.targets.highLevelPackages ≠ [] →
          cfg.targets.highLevelPackages.any (fun pat => gm pat a.name) = true)) ∧
      (cfg.targets.highLevelPackages = [] →
        ∀ p ∈ t.findReverseDependencies impact.changedPackage,
          cfg.shouldIgnorePackage gm p.name = false →
          mkAffected gm cfg p ∈ impact.affectedPackages) := by
  intro gm cfg ord t changedFiles impact himp
  rw [analyze_impacts_eq, List.mem_map] at himp
  obtain ⟨q, _, rfl⟩ := himp
  constructor
  · intro a ha
    rw [List.Perm.mem_iff (List.perm_insertionSort _ _), List.mem_map] at ha
    obtain ⟨dep, hdep, rfl⟩ := ha
    rw [List.mem_filter] at hdep
    have hs := hdep.2
    unfold survives at hs
    rw [Bool.and_eq_true, Bool.not_eq_true'] at hs
    constructor
    · exact hs.1
    · intro hne
      have hh := hs.2
      unfold Config.isHighLevelPackage at hh
      rw [if_neg (by simpa using hne)] at hh
      exact hh
  · intro hempty p hp hig
    show mkAffected gm cfg p ∈ List.insertionSort _ _
    rw [List.Perm.mem_iff (List.perm_insertionSort _ _), List.mem_map]
    refine ⟨p, ?_, rfl⟩
    rw [List.mem_filter]
    refine ⟨hp, ?_⟩
    unfold survives
    rw [hig]
    have hh : cfg.isHighLevelPackage gm p.name = true := by
      unfold Config.isHighLevelPackage
      rw [if_pos (by simp [hempty])]
    rw [hh]
    rfl

/-- Concrete witness for C7: in the fixture analysis, the affected package
`m/c` is not ignored and matches a high-level target pattern. -/
theorem claim_C7_filtering_correct_witness :
    analyzerCfg.shouldIgnorePackage defaultGlob "m/c" = false ∧
    analyzerCfg.targets.highLevelPackages.any (fun pat => defaultGlob pat "m/c") = true := by
  have h := claim_C7_filtering_correct defaultGlob analyzerCfg MapOrder.id analyzerTree
    ["d/d.go"] ⟨"m/d", [⟨"m/c", true⟩]⟩ (by decide)
  have h2 := h.1 ⟨"m/c", true⟩ (by decide)
  exact ⟨h2.1, h2.2 (by decide)⟩

/-! ## Claim C8 — the direct/indirect partition -/

/-- C8: in every analysis result, the direct and indirect dependency lists
are disjoint; the indirect list holds exactly the surviving affected
package names that are not direct dependencies; and both lists are sorted
and duplicate-free. -/
theorem claim_C8_direct_indirect_partition :
    ∀ (gm : String → String → Bool) (cfg : Config) (ord : MapOrder) (t : Tree)
      (changedFiles : List String) (r : AnalysisResult),
      ord.Lawful →
      analyzeChangedPackages gm cfg ord t changedFiles = r →
      (∀ x ∈ r.directDependencies, ¬ x ∈ r.indirectDependencies) ∧
      (∀ x, x ∈ r.indirectDependencies ↔
        ((∃ impact ∈ r.impacts, ∃ a ∈ impact.affectedPackages, a.name = x) ∧
         ¬ x ∈ r.directDependencies)) ∧
      List.Sorted (fun a b => goStrLe a b = true) r.directDependencies ∧
      r.directDependencies.Nodup ∧
      List.Sorted (fun a b => goStrLe a b = true) r.indirectDependencies ∧
      r.indirectDependencies.Nodup := by
  intro gm cfg ord t changedFiles r hlaw hr
  obtain ⟨hlaw1, hlaw2, hlaw3⟩ := hlaw
  set S := (ord.changedOrder (changedPkgsOf t.rootPkgPath changedFiles)).insertionSort
    (fun a b => goStrLe a b = true) with hSdef
  set D := S.foldl (directStep t) [] with hDdef
  set A := S.foldl (fun a q =>
      (((t.findReverseDependencies q).filter (survives gm cfg)).map
        (fun dep => dep.name)).foldl insertNew a) [] with hAdef
  have himp : r.impacts = S.map (fun q =>
      { changedPackage := q
        affectedPackages :=
          (((t.findReverseDependencies q).filter (survives gm cfg)).map
            (mkAffected gm cfg)).insertionSort (fun a b => goStrLe a.name b.name = true) }) := by
    rw [← hr]
    exact analyze_impacts_eq gm cfg ord t changedFiles
  have hdir : r.directDependencies
      = (ord.directOrder D).insertionSort (fun a b => goStrLe a b = true) := by
    rw [← hr]
    rfl
  have hA2 : (S.foldl (impactStep gm cfg t) ([], [])).2 = A := by
    rw [foldl_impactStep_spec]
  have hind : r.indirectDependencies =
      ((ord.affectedOrder A).foldl (fun acc pkg =>
        if D.contains pkg then acc else acc ++ [pkg]) []).insertionSort
        (fun a b => goStrLe a b = true) := by
    rw [← hr, ← hA2]
    rfl
  have hDnodup : D.Nodup := foldl_directStep_nodup t S [] List.nodup_nil
  have hAnodup : A.Nodup := foldl_affected_nodup gm cfg t S [] List.nodup_nil
  have hdmem : ∀ x, x ∈ r.directDependencies ↔ x ∈ D := by
    intro x
    rw [hdir, List.Perm.mem_iff (List.perm_insertionSort _ _),
      List.Perm.mem_iff (hlaw2 _)]
  have himem : ∀ x, x ∈ r.indirectDependencies ↔ (x ∈ A ∧ ¬ x ∈ D) := by
    intro x
    rw [hind, List.Perm.mem_iff (List.perm_insertionSort _ _), foldl_skip_filter,
      List.nil_append, List.mem_filter, List.Perm.mem_iff (hlaw3 _)]
    simp
  have hAiff : ∀ x, x ∈ A ↔
      (∃ impact ∈ r.impacts, ∃ a ∈ impact.affectedPackages, a.name = x) := by
    intro x
    rw [hAdef, foldl_affected_mem]
    simp only [List.not_mem_nil, false_or]
    rw [himp]
    constructor
    · rintro ⟨q, hq, hx⟩
      rw [List.mem_map] at hx
      obtain ⟨dep, hdep, hname⟩ := hx
      refine ⟨_, List.mem_map_of_mem _ hq, mkAffected gm cfg dep, ?_, hname⟩
      exact (List.Perm.mem_iff (List.perm_insertionSort _ _)).mpr
        (List.mem_map_of_mem _ hdep)
    · rintro ⟨impact, himpact, a, ha, hname⟩
      rw [List.mem_map] at himpact
      obtain ⟨q, hq, rfl⟩ := himpact
      replace ha : a ∈ (((t.findReverseDependencies q).filter (survives gm cfg)).map
          (mkAffected gm cfg)).insertionSort (fun a b => goStrLe a.name b.name = true) := ha
      rw [List.Perm.mem_iff (List.perm_insertionSort _ _), List.mem_map] at ha
      obtain ⟨dep, hdep, rfl⟩ := ha
      exact ⟨q, hq, List.mem_map.mpr ⟨dep, hdep, hname⟩⟩
  refine ⟨?_, ?_, ?_, ?_, ?_, ?_⟩
  · intro x hx hix
    exact ((himem x).mp hix).2 ((hdmem x).mp hx)
  · intro x
    rw [himem x, hAiff x, hdmem x]
  · rw [hdir]
    exact List.sorted_insertionSort _ _
  · rw [hdir]
    rw [(List.perm_insertionSort _ _).nodup_iff, (hlaw2 _).nodup_iff]
    exact hDnodup
  · rw [hind]
    exact List.sorted_insertionSort _ _
  · rw [hind]
    rw [(List.perm_insertionSort _ _).nodup_iff, foldl_skip_filter, List.nil_append]
    exact List.Nodup.filter _ ((hlaw3 _).nodup_iff.mpr hAnodup)

/-- Concrete witness for C8: the fixture analysis has sorted, disjoint
dependency lists, with `m/c` indirect only. -/
theorem claim_C8_direct_indirect_partition_witness :
    List.Sorted (fun a b => goStrLe a b = true)
      (analyzeChangedPackages defaultGlob analyzerCfg MapOrder.id analyzerTree
        ["d/d.go"]).directDependencies ∧
    (analyzeChangedPackages defaultGlob analyzerCfg MapOrder.id analyzerTree
      ["d/d.go"]).indirectDependencies.Nodup :=
  ⟨(claim_C8_direct_indirect_partition defaultGlob analyzerCfg MapOrder.id analyzerTree
      ["d/d.go"] _ mapOrder_id_lawful rfl).2.2.1,
   (claim_C8_direct_indirect_partition defaultGlob analyzerCfg MapOrder.id analyzerTree
      ["d/d.go"] _ mapOrder_id_lawful rfl).2.2.2.2.2⟩

/-! ## Claim C3 — determinism of the analysis

The nondeterminism of Go map iteration enters the analysis in two ways:
the `Tree.Packages` map may be enumerated in any order (the association
list up to permutation), and the three set-typed maps are read through the
reordering oracles.  The theorem shows the result is identical for any two
lawful oracles and any two enumerations of the same package map. -/

/-- Two sorted affected-package lists that are permutations of each other
and have distinct names are equal (sorting by name is canonical). -/
theorem eq_of_perm_sorted_names :
    ∀ (l1 l2 : List AffectedPackage), List.Perm l1 l2 →
      List.Sorted (fun a b => goStrLe a.name b.name = true) l1 →
      List.Sorted (fun a b => goStrLe a.name b.name = true) l2 →
      (l1.map (fun a => a.name)).Nodup →
      l1 = l2 := by
  intro l1
  induction l1 with
  | nil =>
    intro l2 h _ _ _
    exact (h.symm.eq_nil).symm
  | cons a t1 ih =>
    intro l2 h hs1 hs2 hnd
    cases l2 with
    | nil => cases h.eq_nil
    | cons b t2 =>
      by_cases hab : a = b
      · subst hab
        rw [ih t2 h.cons_inv hs1.of_cons hs2.of_cons
          (by
            rw [List.map_cons, List.nodup_cons] at hnd
            exact hnd.2)]
      · exfalso
        have ha2 : a ∈ b :: t2 := h.mem_iff.mp (List.mem_cons_self _ _)
        have hb1 : b ∈ a :: t1 := h.mem_iff.mpr (List.mem_cons_self _ _)
        have hat2 : a ∈ t2 := by
          rcases List.mem_cons.mp ha2 with h1 | h1
          · exact absurd h1 hab
          · exact h1
        have hbt1 : b ∈ t1 := by
          rcases List.mem_cons.mp hb1 with h1 | h1
          · exact absurd h1.symm hab
          · exact h1
        have r1 : goStrLe a.name b.name = true := List.rel_of_sorted_cons hs1 b hbt1
        have r2 : goStrLe b.name a.name = true := List.rel_of_sorted_cons hs2 a hat2
        have hname : a.name = b.name :=
          @IsAntisymm.antisymm String (fun x y : String => goStrLe x y = true) _
            a.name b.name r1 r2
        rw [List.map_cons, List.nodup_cons] at hnd
        exact hnd.1 (hname ▸ List.mem_map_of_mem (fun x => x.name) hbt1)

/-- A successful lookup returns an entry of the map. -/
theorem lookupPkg_mem_of_eq_some (ps : List (String × Pkg)) (k : String) (p : Pkg)
    (h : lookupPkg ps k = some p) : (k, p) ∈ ps := by
  unfold lookupPkg at h
  cases hfind : ps.find? (fun e => e.1 == k) with
  | none => rw [hfind] at h; cases h
  | some e =>
    rw [hfind] at h
    have hkb : (fun x : String × Pkg => x.1 == k) e = true :=
      List.find?_some (p := fun x : String × Pkg => x.1 == k) hfind
    have hk : e.1 = k := beq_iff_eq.mp hkb
    have hmem : e ∈ ps := List.mem_of_find?_eq_some hfind
    have hp : e.2 = p := by
      change some e.2 = some p at h
      exact Option.some.inj h
    rw [← hk, ← hp]
    exact hmem

/-- With distinct keys, membership determines the lookup. -/
theorem lookupPkg_eq_some_of_mem :
    ∀ (ps : List (String × Pkg)) (k : String) (p : Pkg),
      (ps.map (fun e => e.1)).Nodup → (k, p) ∈ ps → lookupPkg ps k = some p := by
  intro ps
  induction ps with
  | nil => intro k p _ hmem; cases hmem
  | cons e rest ih =>
    intro k p hnd hmem
    rw [List.map_cons, List.nodup_cons] at hnd
    by_cases hk : (e.1 == k) = true
    · have hl : lookupPkg (e :: rest) k = some e.2 := by
        unfold lookupPkg
        rw [List.find?_cons_of_pos (p := fun x : String × Pkg => x.1 == k) _ hk]
        rfl
      rcases List.mem_cons.mp hmem with h1 | h1
      · rw [hl, ← h1]
      · exfalso
        have : k ∈ rest.map (fun e => e.1) :=
          List.mem_map.mpr ⟨(k, p), h1, rfl⟩
        exact hnd.1 (beq_iff_eq.mp hk ▸ this)
    · have hl : lookupPkg (e :: rest) k = lookupPkg rest k := by
        unfold lookupPkg
        rw [List.find?_cons_of_neg (p := fun x : String × Pkg => x.1 == k) _ hk]
      rcases List.mem_cons.mp hmem with h1 | h1
      · exfalso
        exact hk (beq_iff_eq.mpr (by rw [← h1]))
      · rw [hl]
        exact ih k p hnd.2 h1

/-- Lookup is invariant under permutation of a map with distinct keys. -/
theorem lookupPkg_perm_eq (ps1 ps2 : List (String × Pkg))
    (hperm : List.Perm ps1 ps2) (hnd : (ps1.map (fun e => e.1)).Nodup)
    (k : String) : lookupPkg ps1 k = lookupPkg ps2 k := by
  have hnd2 : (ps2.map (fun e => e.1)).Nodup := ((hperm.map _).nodup_iff).mp hnd
  cases h1 : lookupPkg ps1 k with
  | some p =>
    exact (lookupPkg_eq_some_of_mem ps2 k p hnd2
      (hperm.mem_iff.mp (lookupPkg_mem_of_eq_some ps1 k p h1))).symm
  | none =>
    cases h2 : lookupPkg ps2 k with
    | none => rfl
    | some p =>
      exfalso
      have := hperm.mem_iff.mpr (lookupPkg_mem_of_eq_some ps2 k p h2)
      rw [lookupPkg_eq_none_iff] at h1
      exact h1 (List.mem_map.mpr ⟨(k, p), this, rfl⟩)

/-- The reverse-dependency scans of two enumerations of the same package
map are permutations of each other. -/
theorem findRev_perm (t1 t2 : Tree) (hperm : List.Perm t1.packages t2.packages)
    (q : String) :
    List.Perm (t1.findReverseDependencies q) (t2.findReverseDependencies q) := by
  rw [findReverseDependencies_eq_filter, findReverseDependencies_eq_filter]
  exact (hperm.map (fun e => e.2)).filter _

/-- C3: the analysis, and hence the rendered report, is deterministic — two
runs over the same package map (enumerated in any two orders, with any two
lawful iteration-order oracles for the internal sets) and the same
changed-file list produce identical `AnalysisResult` values and
byte-identical reports.  The `Nodup` hypotheses are the graph invariant:
one node per package path, registered under its own name. -/
theorem claim_C3_analysis_deterministic :
    ∀ (gm : String → String → Bool) (cfg : Config) (ord1 ord2 : MapOrder)
      (t1 t2 : Tree) (changedFiles : List String),
      ord1.Lawful → ord2.Lawful →
      t1.rootPkgPath = t2.rootPkgPath →
      List.Perm t1.packages t2.packages →
      (t1.packages.map (fun e => e.1)).Nodup →
      (t1.packages.map (fun e => e.2.name)).Nodup →
      analyzeChangedPackages gm cfg ord1 t1 changedFiles
        = analyzeChangedPackages gm cfg ord2 t2 changedFiles ∧
      (analyzeChangedPackages gm cfg ord1 t1 changedFiles).render
        = (analyzeChangedPackages gm cfg ord2 t2 changedFiles).render := by
  intro gm cfg ord1 ord2 t1 t2 changedFiles hlawA hlawB hroot hperm hkeys hnames
  obtain ⟨hA1, hA2, hA3⟩ := hlawA
  obtain ⟨hB1, hB2, hB3⟩ := hlawB
  -- the sorted changed-package list is shared
  have hS : (ord1.changedOrder (changedPkgsOf t1.rootPkgPath changedFiles)).insertionSort
        (fun a b => goStrLe a b = true)
      = (ord2.changedOrder (changedPkgsOf t2.rootPkgPath changedFiles)).insertionSort
        (fun a b => goStrLe a b = true) := by
    rw [← hroot]
    exact List.eq_of_perm_of_sorted
      (((List.perm_insertionSort _ _).trans (hA1 _)).trans
        ((hB1 _).symm.trans (List.perm_insertionSort _ _).symm))
      (List.sorted_insertionSort _ _) (List.sorted_insertionSort _ _)
  set S := (ord1.changedOrder (changedPkgsOf t1.rootPkgPath changedFiles)).insertionSort
    (fun a b => goStrLe a b = true) with hSdef
  -- the per-package sorted affected lists agree
  have hAff : ∀ q : String,
      (((t1.findReverseDependencies q).filter (survives gm cfg)).map
        (mkAffected gm cfg)).insertionSort (fun a b => goStrLe a.name b.name = true)
      = (((t2.findReverseDependencies q).filter (survives gm cfg)).map
        (mkAffected gm cfg)).insertionSort (fun a b => goStrLe a.name b.name = true) := by
    intro q
    have hp : List.Perm
        (((t1.findReverseDependencies q).filter (survives gm cfg)).map (mkAffected gm cfg))
        (((t2.findReverseDependencies q).filter (survives gm cfg)).map (mkAffected gm cfg)) :=
      (((findRev_perm t1 t2 hperm q).filter _).map _)
    have hnd1 : (((t1.findReverseDependencies q).filter (survives gm cfg)).map
        (fun p => p.name)).Nodup := by
      have hsub : List.Sublist
          (((t1.findReverseDependencies q).filter (survives gm cfg)).map
            (fun p => p.name))
          ((t1.packages.map (fun e => e.2)).map (fun p => p.name)) := by
        apply List.Sublist.map
        exact List.Sublist.trans (List.filter_sublist _)
          (by rw [findReverseDependencies_eq_filter]; exact List.filter_sublist _)
      rw [List.map_map] at hsub
      exact hsub.nodup hnames
    apply eq_of_perm_sorted_names
    · exact ((List.perm_insertionSort _ _).trans hp).trans
        (List.perm_insertionSort _ _).symm
    · exact List.sorted_insertionSort _ _
    · exact List.sorted_insertionSort _ _
    · have := ((List.perm_insertionSort (fun a b => goStrLe a.name b.name = true)
          (((t1.findReverseDependencies q).filter (survives gm cfg)).map
            (mkAffected gm cfg))).map (fun a => a.name)).nodup_iff
      rw [this]
      rw [List.map_map]
      exact hnd1
  -- the impacts agree
  have hImp : (analyzeChangedPackages gm cfg ord1 t1 changedFiles).impacts
      = (analyzeChangedPackages gm cfg ord2 t2 changedFiles).impacts := by
    rw [analyze_impacts_eq, analyze_impacts_eq, ← hS]
    exact List.map_congr_left (fun q _ => by rw [hAff q])
  -- the direct-dependency sets agree exactly
  have hDS : directStep t1 = directStep t2 := by
    funext acc q
    unfold directStep
    rw [lookupPkg_perm_eq t1.packages t2.packages hperm hkeys q]
  have hD : S.foldl (directStep t1) [] = S.foldl (directStep t2) [] := by
    rw [hDS]
  have hDir : (analyzeChangedPackages gm cfg ord1 t1 changedFiles).directDependencies
      = (analyzeChangedPackages gm cfg ord2 t2 changedFiles).directDependencies := by
    show (ord1.directOrder (S.foldl (directStep t1) [])).insertionSort
        (fun a b => goStrLe a b = true)
      = (ord2.directOrder (((ord2.changedOrder (changedPkgsOf t2.rootPkgPath
          changedFiles)).insertionSort (fun a b => goStrLe a b = true)).foldl
          (directStep t2) [])).insertionSort (fun a b => goStrLe a b = true)
    rw [← hS, ← hD]
    exact List.eq_of_perm_of_sorted
      (((List.perm_insertionSort _ _).trans (hA2 _)).trans
        ((hB2 _).symm.trans (List.perm_insertionSort _ _).symm))
      (List.sorted_insertionSort _ _) (List.sorted_insertionSort _ _)
  -- the accumulated affected-name sets are permutations of each other
  have hA2eq : ∀ (u : Tree), (S.foldl (impactStep gm cfg u) ([], [])).2
      = S.foldl (fun a q =>
          (((u.findReverseDependencies q).filter (survives gm cfg)).map
            (fun dep => dep.name)).foldl insertNew a) [] := by
    intro u
    rw [foldl_impactStep_spec]
  have hAperm : List.Perm (S.foldl (impactStep gm cfg t1) ([], [])).2
      (S.foldl (impactStep gm cfg t2) ([], [])).2 := by
    rw [hA2eq t1, hA2eq t2]
    apply (List.perm_ext_iff_of_nodup
      (foldl_affected_nodup gm cfg t1 S [] List.nodup_nil)
      (foldl_affected_nodup gm cfg t2 S [] List.nodup_nil)).mpr
    intro x
    rw [foldl_affected_mem, foldl_affected_mem]
    simp only [List.not_mem_nil, false_or]
    constructor
    · rintro ⟨q, hq, hx⟩
      exact ⟨q, hq, (((findRev_perm t1 t2 hperm q).filter _).map _).mem_iff.mp hx⟩
    · rintro ⟨q, hq, hx⟩
      exact ⟨q, hq, (((findRev_perm t1 t2 hperm q).filter _).map _).mem_iff.mpr hx⟩
  -- the indirect lists agree
  have hInd : (analyzeChangedPackages gm cfg ord1 t1 changedFiles).indirectDependencies
      = (analyzeChangedPackages gm cfg ord2 t2 changedFiles).indirectDependencies := by
    show ((ord1.affectedOrder (S.foldl (impactStep gm cfg t1) ([], [])).2).foldl
        (fun acc pkg => if (S.foldl (directStep t1) []).contains pkg then acc
          else acc ++ [pkg]) []).insertionSort (fun a b => goStrLe a b = true)
      = ((ord2.affectedOrder (((ord2.changedOrder (changedPkgsOf t2.rootPkgPath
          changedFiles)).insertionSort (fun a b => goStrLe a b = true)).foldl
          (impactStep gm cfg t2) ([], [])).2).foldl
        (fun acc pkg => if (((ord2.changedOrder (changedPkgsOf t2.rootPkgPath
          changedFiles)).insertionSort (fun a b => goStrLe a b = true)).foldl
          (directStep t2) []).contains pkg then acc
          else acc ++ [pkg]) []).insertionSort (fun a b => goStrLe a b = true)
    rw [← hS, ← hD]
    rw [foldl_skip_filter, foldl_skip_filter]
    apply List.eq_of_perm_of_sorted (r := fun a b => goStrLe a b = true)
    · apply (List.perm_insertionSort _ _).trans
      apply List.Perm.trans _ (List.perm_insertionSort _ _).symm
      simp only [List.nil_append]
      exact ((hA3 _).trans (hAperm.trans (hB3 _).symm)).filter _
    · exact List.sorted_insertionSort _ _
    · exact List.sorted_insertionSort _ _
  have hres : analyzeChangedPackages gm cfg ord1 t1 changedFiles
      = analyzeChangedPackages gm cfg ord2 t2 changedFiles := by
    cases hr1 : analyzeChangedPackages gm cfg ord1 t1 changedFiles
    cases hr2 : analyzeChangedPackages gm cfg ord2 t2 changedFiles
    rw [hr1, hr2] at hImp hDir hInd
    simp only at hImp hDir hInd
    rw [hImp, hDir, hInd]
  exact ⟨hres, by rw [hres]⟩

/-- Concrete witness for C3: iterating the fixture package map in the
opposite order, with a reversing iteration oracle, yields the identical
analysis result. -/
theorem claim_C3_analysis_deterministic_witness :
    analyzeChangedPackages defaultGlob analyzerCfg MapOrder.id analyzerTree ["d/d.go"]
      = analyzeChangedPackages defaultGlob analyzerCfg reverseOrder analyzerTreeRev
        ["d/d.go"] :=
  (claim_C3_analysis_deterministic defaultGlob analyzerCfg MapOrder.id reverseOrder
    analyzerTree analyzerTreeRev ["d/d.go"] mapOrder_id_lawful
    ⟨fun l => List.reverse_perm l, fun l => List.reverse_perm l,
      fun l => List.reverse_perm l⟩
    rfl (by decide) (by decide) (by decide)).1

end DepGuardian
